import Mathlib

/-!
A shallow embedding of `parldl` (`src/parldl/__main__.py`), a parallel URL
downloader: the single-resource fetcher `download_image` and the
orchestrator loop `_download_images`, together with proofs of the spec's
claims about them.

Strings are processed as `List Char`, which models Python `str` operations
(`startswith`, splitting on a character) faithfully for the fragments the
program uses and keeps every definition kernel-evaluable.
-/

namespace Parldl

/-- Model of Python `str.startswith`: `cs` starts with pattern `ps`. -/
def charsStartWith : List Char → List Char → Bool
  | _, [] => true
  | [], _ :: _ => false
  | c :: cs, p :: ps => c == p && charsStartWith cs ps

/-- Python `s.startswith(p)` on strings. -/
def startswith (s p : String) : Bool :=
  charsStartWith s.toList p.toList

/-- Characters legal in a URL scheme after the first (letters, digits, `+`,
`-`, `.`), as in `urllib.parse`. -/
def schemeChar (c : Char) : Bool :=
  c.isAlphanum || c == '+' || c == '-' || c == '.'

/-- Split a character list at the first `:`; `none` when there is no colon.
Models `url.find(':')` in `urllib.parse.urlsplit`. -/
def findColon : List Char → Option (List Char × List Char)
  | [] => none
  | c :: cs =>
    if c = ':' then some ([], cs)
    else
      match findColon cs with
      | some (b, a) => some (c :: b, a)
      | none => none

/-- Scheme extraction of `urllib.parse.urlsplit`: if the part before the
first colon is a nonempty run of scheme characters starting with a letter,
it is the scheme (lower-cased) and the rest follows the colon; otherwise
there is no scheme. -/
def splitScheme (url : List Char) : List Char × List Char :=
  match findColon url with
  | some (b, a) =>
    if b ≠ [] ∧ b.all schemeChar ∧ (b.headD 'a').isAlpha then
      (b.map Char.toLower, a)
    else ([], url)
  | none => ([], url)

/-- A character that ends the netloc in `urllib.parse._splitnetloc`. -/
def netlocEnd (c : Char) : Bool :=
  c == '/' || c == '?' || c == '#'

/-- The three components of `urllib.parse.urlparse` that `download_image`
uses: `scheme`, `netloc` and `path`. -/
structure UrlParts where
  scheme : String
  netloc : String
  path : String
deriving Repr, DecidableEq

/-- The fragment of `urllib.parse.urlsplit` exercised by `download_image`:
scheme split, netloc extraction after `//` (stopping at `/`, `?` or `#`),
and the path is what remains before any `#` or `?`.  Mirrors CPython: when
the netloc contains `[` without `]` or `]` without `[`, `urlsplit` raises
`ValueError("Invalid IPv6 URL")`, modelled as `Except.error`. -/
def urlsplitCore (url : String) : Except String UrlParts :=
  let (scheme, rest) := splitScheme url.toList
  let (netloc, rest2) :=
    if charsStartWith rest ['/', '/'] then
      ((rest.drop 2).takeWhile (fun c => !netlocEnd c),
       (rest.drop 2).dropWhile (fun c => !netlocEnd c))
    else ([], rest)
  if (netloc.contains '[' && !netloc.contains ']')
      || (netloc.contains ']' && !netloc.contains '[') then
    Except.error "Invalid IPv6 URL"
  else
    let path := (rest2.takeWhile (fun c => c != '#')).takeWhile (fun c => c != '?')
    Except.ok ⟨String.mk scheme, String.mk netloc, String.mk path⟩

/-- The schemes for which `urllib.parse.urlparse` splits `;params` off the
path (`uses_params` in CPython); note it includes the empty scheme. -/
def uses_params : List String :=
  ["", "ftp", "hdl", "prospero", "http", "imap", "https", "shttp", "rtsp",
   "rtspu", "sip", "sips", "mms", "sftp", "tel"]

/-- Model of `urllib.parse._splitparams` applied to a path, keeping only
the part before the params: when the path contains `/`, the first `;` at or
after the LAST `/` starts the params (`url.find(";", url.rfind("/"))`);
otherwise the first `;` does.  When there is no such `;` the path is
unchanged (which also covers CPython's `";" in url` guard). -/
def stripParams (path : List Char) : List Char :=
  if path.contains '/' then
    let after := path.foldl (fun acc c => if c = '/' then [] else acc ++ [c]) []
    path.take (path.length - after.length) ++ after.takeWhile (fun c => c ≠ ';')
  else
    path.takeWhile (fun c => c ≠ ';')

/-- Model of `urllib.parse.urlparse` as `download_image` uses it:
`urlsplit`, then `;params` stripped from the path when the scheme uses
params (http, https and the empty scheme among them). -/
def urlparseCore (url : String) : Except String UrlParts :=
  match urlsplitCore url with
  | Except.error e => Except.error e
  | Except.ok parts =>
    if uses_params.contains parts.scheme then
      Except.ok ⟨parts.scheme, parts.netloc, String.mk (stripParams parts.path.toList)⟩
    else
      Except.ok parts

/-- Split a character list on `/`, keeping empty segments. -/
def segments : List Char → List (List Char)
  | [] => [[]]
  | c :: cs =>
    if c = '/' then [] :: segments cs
    else
      match segments cs with
      | s :: rest => (c :: s) :: rest
      | [] => [[c]]

/-- Model of `pathlib.Path(path).name`: the last component of the path,
where empty components and `.` components do not count; `""` when there is
none. -/
def pathName (path : String) : String :=
  String.mk ((((segments path.toList).filter
    (fun s => !s.isEmpty && !(s == ['.'])))).getLastD [])

/-- One completed HTTP exchange as seen through `requests.get`: a status
code and a payload. -/
structure Response where
  status_code : Nat
  content : String
deriving Repr, DecidableEq

/-- The value of one call of `download_image`: the `(success, error)` pair
it returns, plus the list of `(path, bytes)` file writes it performed
(ghost observability of `filepath.write_bytes`). -/
structure FetchResult where
  success : Bool
  error : Option String
  writes : List (String × String)
deriving Repr, DecidableEq

/-- The filename derivation of `download_image` (lines 24–29): the final
segment of the URL's path (`Path(parsed_url.path).name`), or
`f"{parsed_url.netloc}.html"` when that name is empty. -/
def derived_filename (parsed_url : UrlParts) : String :=
  let filename := pathName parsed_url.path
  if filename = "" then parsed_url.netloc ++ ".html" else filename

/-- The function `download_image(url, output_dir)` from `src/parldl/__main__.py`.

The ambient effects are parameters: `http url` is the outcome of
`requests.get(url, timeout=30)` (`Except.error msg` models a raised
exception rendered by `str(e)`), and `writeB path bytes` is the outcome of
`filepath.write_bytes` (`Except.error msg` a raised exception).

The overall result is `Except String FetchResult`: `Except.error` models an
exception escaping `download_image` itself.  Faithful to the source, the
URL is parsed and the filename derived BEFORE the `try` block, so a parse
error propagates; everything inside the `try` is captured and returned as
`(False, str(e))`. -/
def download_image (http : String → Except String Response)
    (writeB : String → String → Except String Unit)
    (url : String) (output_dir : String) : Except String FetchResult :=
  match urlparseCore url with
  | Except.error e => Except.error e
  | Except.ok parsed_url =>
    let filepath := output_dir ++ "/" ++ derived_filename parsed_url
    match http url with
    | Except.error e => Except.ok ⟨false, some e, []⟩
    | Except.ok response =>
      if response.status_code = 200 then
        match writeB filepath response.content with
        | Except.ok _ => Except.ok ⟨true, none, [(filepath, response.content)]⟩
        | Except.error e => Except.ok ⟨false, some e, []⟩
      else
        Except.ok ⟨false, some ("HTTP " ++ toString response.status_code), []⟩

/-- The retry classification of `_download_images` (lines 80–85): the exact
boolean condition
`error.startswith("HTTP 5") or error.startswith("HTTP 408") or
 error.startswith("HTTP 429") or not error.startswith("HTTP")`. -/
def retryable_error (error : String) : Bool :=
  startswith error "HTTP 5" || startswith error "HTTP 408"
    || startswith error "HTTP 429" || !startswith error "HTTP"

/-- The live state of the `_download_images` loop.

`pending` is the deque `pending_urls`, `inFlight` the urls of
`future_to_url` in insertion order, `attempts` the dict `url_to_attempts`
(as a total function), `failedForever` the list `failed_forever_urls`, and
`successCount` / `failCount` / `remaining` / `total` the counters
`success_count` / `fail_count` / `remaining_urls` / `total_urls`
(`remaining` as an integer, since the source decrements it and the spec
asserts it stays nonnegative).  `succeededUrls` and `dispatched` are ghost
instrumentation: the urls whose fetch succeeded, and per url the number of
`executor.submit` calls made for it; neither influences any transition. -/
structure OrchState where
  pending : List String
  inFlight : List String
  attempts : String → Nat
  failedForever : List String
  succeededUrls : List String
  dispatched : String → Nat
  successCount : Nat
  failCount : Nat
  remaining : Int
  total : Nat

/-- The state at the top of the loop: `pending_urls = deque(urls)`,
`url_to_attempts = {url: 1 for url in urls}`, counters zero,
`remaining_urls = total_urls = len(urls)`. -/
def initState (urls : List String) : OrchState :=
  { pending := urls
    inFlight := []
    attempts := fun u => if u ∈ urls then 1 else 0
    failedForever := []
    succeededUrls := []
    dispatched := fun _ => 0
    successCount := 0
    failCount := 0
    remaining := (urls.length : Int)
    total := urls.length }

/-- The dispatch phase (`while pending_urls: url = pending_urls.popleft();
executor.submit(...)`): every pending url is submitted, unconditionally —
the source consults no concurrency bound here. -/
def dispatch (s : OrchState) : OrchState :=
  { s with
    pending := []
    inFlight := s.inFlight ++ s.pending
    dispatched := fun u => s.dispatched u + s.pending.count u }

/-- Processing of one completed future for `url` in the drain phase.

`oracle url a` is the `(success, error)` pair `download_image` returned for
the fetch of `url` dispatched while `url_to_attempts[url] = a`: `none` for
`(True, None)`, `some e` for `(False, e)` (claim C10 justifies this shape).
Mirrors lines 76–92 of the source: on success bump `success_count` and
decrement `remaining_urls`; on a retryable error with
`url_to_attempts[url] < max_attempts` append the url back to the pending
deque and bump its attempt count; otherwise record it permanently failed. -/
def drainOne (maxAttempts : Nat) (oracle : String → Nat → Option String)
    (s : OrchState) (url : String) : OrchState :=
  match oracle url (s.attempts url) with
  | none =>
    { s with
      successCount := s.successCount + 1
      remaining := s.remaining - 1
      succeededUrls := s.succeededUrls ++ [url] }
  | some error =>
    if retryable_error error ∧ s.attempts url < maxAttempts then
      { s with
        pending := s.pending ++ [url]
        attempts := fun u => if u = url then s.attempts u + 1 else s.attempts u }
    else
      { s with
        failedForever := s.failedForever ++ [url]
        failCount := s.failCount + 1
        remaining := s.remaining - 1 }

/-- The in-flight items marked done by the selection `sel` (in dict
insertion order, like `[f for f in future_to_url if f.done()]`); items past
the end of `sel` are not done. -/
def pick : List String → List Bool → List String
  | [], _ => []
  | _, [] => []
  | u :: us, b :: bs => if b then u :: pick us bs else pick us bs

/-- The in-flight items NOT marked done by `sel`: they stay in flight. -/
def unpick : List String → List Bool → List String
  | [], _ => []
  | us, [] => us
  | u :: us, b :: bs => if b then unpick us bs else u :: unpick us bs

/-- Drain each completed future in order. -/
def procAll (maxAttempts : Nat) (oracle : String → Nat → Option String) :
    OrchState → List String → OrchState
  | s, [] => s
  | s, u :: rest => procAll maxAttempts oracle (drainOne maxAttempts oracle s u) rest

/-- One iteration of the `while pending_urls or future_to_url` loop:
dispatch everything pending, then drain the completed futures chosen by
`sel` (the completion pattern of this poll — futures finish at the
scheduler's whim, so it is a parameter). -/
def tick (maxAttempts : Nat) (oracle : String → Nat → Option String)
    (sel : List Bool) (s : OrchState) : OrchState :=
  let s1 := dispatch s
  procAll maxAttempts oracle { s1 with inFlight := unpick s1.inFlight sel }
    (pick s1.inFlight sel)

/-- The loop guard `pending_urls or future_to_url`, negated. -/
def loopDone (s : OrchState) : Bool :=
  s.pending.isEmpty && s.inFlight.isEmpty

/-- Run the loop under a schedule of completion patterns, one per
iteration; the schedule length bounds how many iterations we observe. -/
def run (maxAttempts : Nat) (oracle : String → Nat → Option String) :
    List (List Bool) → OrchState → OrchState
  | [], s => s
  | sel :: sched, s =>
    if loopDone s then s
    else run maxAttempts oracle sched (tick maxAttempts oracle sel s)

/-- One iteration under the prompt scheduler: every in-flight fetch has
completed by the time the loop polls. -/
def tickFull (maxAttempts : Nat) (oracle : String → Nat → Option String)
    (s : OrchState) : OrchState :=
  tick maxAttempts oracle (List.replicate (dispatch s).inFlight.length true) s

/-- The loop under the prompt scheduler, with fuel. -/
def runFull (maxAttempts : Nat) (oracle : String → Nat → Option String) :
    Nat → OrchState → OrchState
  | 0, s => s
  | n + 1, s =>
    if loopDone s then s
    else runFull maxAttempts oracle n (tickFull maxAttempts oracle s)

/-- The inductive invariant of the drain/dispatch loop, for an input list
`urls` (the source's precondition: deduplicated, supplied by `main`),
attempt cap `maxA` and fetch oracle `oracle`.  `C` is the pool of
completed-but-not-yet-processed futures of the current drain pass (empty at
the observable points between iterations).

It packages: the counter bookkeeping (`success_count`, `fail_count`,
`remaining_urls` against the queue sizes), per-url conservation (each input
url sits in exactly one place), the attempt-counter bounds, and the
relationship between the ghost `dispatched` counter and `url_to_attempts`.
-/
structure Inv (urls : List String) (maxA : Nat)
    (oracle : String → Nat → Option String)
    (C : List String) (s : OrchState) : Prop where
  total_eq : s.total = urls.length
  succ_eq : s.successCount = s.succeededUrls.length
  fail_eq : s.failCount = s.failedForever.length
  count_sum : s.successCount + s.failCount
      + (s.pending.length + s.inFlight.length + C.length) = s.total
  remaining_eq : s.remaining
      = ((s.pending.length + s.inFlight.length + C.length : Nat) : Int)
  mem_one : ∀ u ∈ urls,
      s.pending.count u + s.inFlight.count u + C.count u
        + s.failedForever.count u + s.succeededUrls.count u = 1
  mem_zero : ∀ u, u ∉ urls →
      s.pending.count u = 0 ∧ s.inFlight.count u = 0 ∧ C.count u = 0
        ∧ s.failedForever.count u = 0 ∧ s.succeededUrls.count u = 0
  att_lb : ∀ u ∈ urls, 1 ≤ s.attempts u
  att_ub : ∀ u ∈ urls, s.attempts u ≤ maxA
  disp_pend : ∀ u ∈ s.pending, s.dispatched u + 1 = s.attempts u
  disp_flight : ∀ u, u ∈ s.inFlight ∨ u ∈ C → s.dispatched u = s.attempts u
  failed_max : ∀ u ∈ s.failedForever,
      (∀ a, ∃ e, oracle u a = some e ∧ retryable_error e = true) →
      s.dispatched u = maxA
  succ_wit : ∀ u ∈ s.succeededUrls, ∃ a, oracle u a = none

/-- Termination potential: each live work item (pending, in flight, or
completed-unprocessed) contributes `maxA + 1` minus its attempt count. -/
def livePot (maxA : Nat) (s : OrchState) (C : List String) : Nat :=
  ((s.pending ++ s.inFlight ++ C).map (fun u => maxA + 1 - s.attempts u)).sum

/-- An HTTP world in which every exchange completes with the given status
and body. -/
def httpConst (status : Nat) (content : String) : String → Except String Response :=
  fun _ => Except.ok ⟨status, content⟩

/-- A storage in which every write succeeds. -/
def writeOk : String → String → Except String Unit :=
  fun _ _ => Except.ok ()

/-- Following the spec's words for the fallback filename (`{host}.html`
where `host` is the URL's host name): the host portion of the authority,
i.e. the netloc with any user-info (up to the last `@`) and any `:port`
removed and lower-cased, as `urllib`'s `.hostname` computes it. -/
def spec_hostName (netloc : String) : String :=
  String.mk (((netloc.toList.foldl
    (fun acc c => if c = '@' then [] else acc ++ [c]) []).takeWhile
      (fun c => c ≠ ':')).map Char.toLower)

/-- An oracle under which every fetch succeeds. -/
def oracleNone : String → Nat → Option String :=
  fun _ _ => none

/-- An oracle under which every fetch fails with HTTP 404 (a non-retryable
status). -/
def oracle404 : String → Nat → Option String :=
  fun _ _ => some "HTTP 404"

/-- An oracle under which every fetch of every url fails with HTTP 500 (a
retryable status). -/
def oracle500 : String → Nat → Option String :=
  fun _ _ => some "HTTP 500"

/-- An oracle under which every fetch fails with the message `requests`
produces for a read timeout — a transport error whose text happens to
start with `HTTP`. -/
def oracleTimeout : String → Nat → Option String :=
  fun _ _ => some "HTTPSConnectionPool(host=example.com, port=443): Read timed out. (read timeout=30)"

/-! Helper lemmas. -/

theorem pick_count (l : List String) (sel : List Bool) (x : String) :
    (pick l sel).count x + (unpick l sel).count x = l.count x := by
  induction l generalizing sel with
  | nil => cases sel <;> simp [pick, unpick]
  | cons u us ih =>
    cases sel with
    | nil => simp [pick, unpick]
    | cons b bs =>
      by_cases hb : b <;> by_cases hx : u = x <;>
        simp [pick, unpick, hb, hx, List.count_cons, ← ih bs] <;> omega

theorem pick_length (l : List String) (sel : List Bool) :
    (pick l sel).length + (unpick l sel).length = l.length := by
  induction l generalizing sel with
  | nil => cases sel <;> simp [pick, unpick]
  | cons u us ih =>
    cases sel with
    | nil => simp [pick, unpick]
    | cons b bs =>
      by_cases hb : b <;> simp [pick, unpick, hb, ← ih bs] <;> omega

theorem mem_of_mem_pick {l : List String} {sel : List Bool} {x : String}
    (h : x ∈ pick l sel) : x ∈ l := by
  have h1 : 0 < (pick l sel).count x := List.count_pos_iff.mpr h
  have h2 := pick_count l sel x
  exact List.count_pos_iff.mp (by omega)

theorem mem_of_mem_unpick {l : List String} {sel : List Bool} {x : String}
    (h : x ∈ unpick l sel) : x ∈ l := by
  have h1 : 0 < (unpick l sel).count x := List.count_pos_iff.mpr h
  have h2 := pick_count l sel x
  exact List.count_pos_iff.mp (by omega)

/-! Establishment and preservation of the loop invariant. -/

theorem Inv_init (urls : List String) (maxA : Nat)
    (oracle : String → Nat → Option String)
    (hnd : urls.Nodup) (hmax : 1 ≤ maxA) :
    Inv urls maxA oracle [] (initState urls) := by
  refine ⟨rfl, rfl, rfl, by simp [initState], by simp [initState],
    ?_, ?_, ?_, ?_, ?_, ?_, ?_, ?_⟩
  · intro u hu
    simp [initState, List.count_eq_one_of_mem hnd hu]
  · intro u hu
    simp [initState, List.count_eq_zero.mpr hu]
  · intro u hu; simp [initState, hu]
  · intro u hu; simp [initState, hu]; omega
  · intro u hu
    simp only [initState] at hu
    simp [initState, hu]
  · intro u hu; rcases hu with h | h <;> simp [initState] at h
  · intro u hu; simp [initState] at hu
  · intro u hu; simp [initState] at hu

theorem Inv_dispatch {urls : List String} {maxA : Nat}
    {oracle : String → Nat → Option String} {C : List String} {s : OrchState}
    (hI : Inv urls maxA oracle C s) :
    Inv urls maxA oracle C (dispatch s) := by
  obtain ⟨h1, h2, h3, h4, h5, h6, h7, h8, h9, h10, h11, h12, h13⟩ := hI
  refine ⟨h1, h2, h3,
    by simp only [dispatch, List.length_append, List.length_nil]; omega,
    by simp only [dispatch, List.length_append, List.length_nil];
       push_cast at h5 ⊢; omega,
    ?_, ?_, h8, h9, ?_, ?_, ?_, h13⟩
  · intro u hu
    have := h6 u hu
    simp only [dispatch, List.count_append, List.count_nil]
    omega
  · intro u hu
    have := h7 u hu
    simp only [dispatch, List.count_append, List.count_nil]
    exact ⟨trivial, by omega⟩
  · intro u hu
    simp [dispatch] at hu
  · intro u hu
    simp only [dispatch]
    by_cases hm : u ∈ urls
    · have hone := h6 u hm
      rcases hu with hu | hu
      · simp only [dispatch, List.mem_append] at hu
        rcases hu with hu | hu
        · have hc : 0 < s.inFlight.count u := List.count_pos_iff.mpr hu
          have hp : s.pending.count u = 0 := by omega
          rw [hp]
          exact h11 u (Or.inl hu)
        · have hc : 0 < s.pending.count u := List.count_pos_iff.mpr hu
          have hp : s.pending.count u = 1 := by omega
          have := h10 u hu
          omega
      · have hc : 0 < C.count u := List.count_pos_iff.mpr hu
        have hp : s.pending.count u = 0 := by omega
        rw [hp]
        exact h11 u (Or.inr hu)
    · have hz := h7 u hm
      have hp : s.pending.count u = 0 := hz.1
      rw [hp]
      rcases hu with hu | hu
      · simp only [dispatch, List.mem_append] at hu
        rcases hu with hu | hu
        · exact h11 u (Or.inl hu)
        · exact absurd (List.count_pos_iff.mpr hu) (by omega)
      · exact h11 u (Or.inr hu)
  · intro u hu hret
    simp only [dispatch] at hu
    simp only [dispatch]
    by_cases hm : u ∈ urls
    · have hone := h6 u hm
      have hc : 0 < s.failedForever.count u := List.count_pos_iff.mpr hu
      have hp : s.pending.count u = 0 := by omega
      rw [hp]
      exact h12 u hu hret
    · have hz := h7 u hm
      exact absurd (List.count_pos_iff.mpr hu) (by omega)

theorem Inv_drainOne {urls : List String} {maxA : Nat}
    {oracle : String → Nat → Option String} {u : String} {C : List String}
    {s : OrchState} (hI : Inv urls maxA oracle (u :: C) s) :
    Inv urls maxA oracle C (drainOne maxA oracle s u) := by
  obtain ⟨h1, h2, h3, h4, h5, h6, h7, h8, h9, h10, h11, h12, h13⟩ := hI
  have hu_urls : u ∈ urls := by
    by_contra hne
    have := (h7 u hne).2.2.1
    simp [List.count_cons_self] at this
  have hone := h6 u hu_urls
  rw [List.count_cons_self] at hone
  have hpend0 : s.pending.count u = 0 := by omega
  have hflight0 : s.inFlight.count u = 0 := by omega
  have hC0 : C.count u = 0 := by omega
  have hfail0 : s.failedForever.count u = 0 := by omega
  have hsucc0 : s.succeededUrls.count u = 0 := by omega
  have hnp : u ∉ s.pending := List.count_eq_zero.mp hpend0
  have hnf : u ∉ s.inFlight := List.count_eq_zero.mp hflight0
  have hnC : u ∉ C := List.count_eq_zero.mp hC0
  have hdisp : s.dispatched u = s.attempts u := h11 u (Or.inr (List.mem_cons_self u C))
  simp only [List.length_cons] at h4 h5
  cases horacle : oracle u (s.attempts u) with
  | none =>
    simp only [drainOne, horacle]
    refine ⟨h1, ?_, h3, ?_, ?_, ?_, ?_, h8, h9, h10, ?_, h12, ?_⟩
    · simp [List.length_append, h2]
    · simp only [List.length_append, List.length_singleton]
      omega
    · simp only []
      rw [h5]
      push_cast
      omega
    · intro x hx
      have hx1 := h6 x hx
      rw [List.count_cons] at hx1
      simp only [List.count_append, List.count_singleton]
      by_cases hxu : u = x
      · subst hxu
        simp only [beq_self_eq_true, if_pos rfl] at hx1 ⊢
        omega
      · rw [if_neg (by simpa using hxu)] at hx1 ⊢
        omega
    · intro x hx
      have hx1 := h7 x hx
      rw [List.count_cons] at hx1
      simp only [List.count_append, List.count_singleton]
      by_cases hxu : u = x
      · subst hxu
        exact absurd hu_urls hx
      · rw [if_neg (by simpa using hxu)] at hx1 ⊢
        omega
    · intro x hx
      exact h11 x (hx.imp id (List.mem_cons_of_mem u))
    · intro x hx
      rcases List.mem_append.mp hx with hx | hx
      · exact h13 x hx
      · rw [List.mem_singleton] at hx
        subst hx
        exact ⟨s.attempts x, horacle⟩
  | some e =>
    simp only [drainOne, horacle]
    by_cases hcond : retryable_error e = true ∧ s.attempts u < maxA
    · rw [if_pos hcond]
      refine ⟨h1, h2, h3, ?_, ?_, ?_, ?_, ?_, ?_, ?_, ?_, h12, h13⟩
      · simp only [List.length_append, List.length_singleton]
        omega
      · simp only [List.length_append, List.length_singleton]
        rw [h5]
        push_cast
        omega
      · intro x hx
        have hx1 := h6 x hx
        rw [List.count_cons] at hx1
        simp only [List.count_append, List.count_singleton]
        by_cases hxu : u = x
        · subst hxu
          simp only [beq_self_eq_true, if_pos rfl] at hx1 ⊢
          omega
        · rw [if_neg (by simpa using hxu)] at hx1 ⊢
          omega
      · intro x hx
        have hx1 := h7 x hx
        rw [List.count_cons] at hx1
        simp only [List.count_append, List.count_singleton]
        by_cases hxu : u = x
        · subst hxu
          exact absurd hu_urls hx
        · rw [if_neg (by simpa using hxu)] at hx1 ⊢
          omega
      · intro x hx
        simp only []
        by_cases hxu : x = u
        · subst hxu
          rw [if_pos rfl]
          omega
        · rw [if_neg hxu]
          exact h8 x hx
      · intro x hx
        simp only []
        by_cases hxu : x = u
        · subst hxu
          rw [if_pos rfl]
          omega
        · rw [if_neg hxu]
          exact h9 x hx
      · intro x hx
        simp only []
        rcases List.mem_append.mp hx with hx | hx
        · have hxu : x ≠ u := fun h => hnp (h ▸ hx)
          rw [if_neg hxu]
          exact h10 x hx
        · rw [List.mem_singleton] at hx
          subst hx
          rw [if_pos rfl, hdisp]
      · intro x hx
        simp only []
        have hxu : x ≠ u := by
          rintro rfl
          rcases hx with hx | hx
          · exact hnf hx
          · exact hnC hx
        rw [if_neg hxu]
        exact h11 x (hx.imp id (List.mem_cons_of_mem u))
    · rw [if_neg hcond]
      refine ⟨h1, h2, ?_, ?_, ?_, ?_, ?_, h8, h9, h10, ?_, ?_, h13⟩
      · simp [List.length_append, h3]
      · simp only [List.length_append, List.length_singleton]
        omega
      · simp only []
        rw [h5]
        push_cast
        omega
      · intro x hx
        have hx1 := h6 x hx
        rw [List.count_cons] at hx1
        simp only [List.count_append, List.count_singleton]
        by_cases hxu : u = x
        · subst hxu
          simp only [beq_self_eq_true, if_pos rfl] at hx1 ⊢
          omega
        · rw [if_neg (by simpa using hxu)] at hx1 ⊢
          omega
      · intro x hx
        have hx1 := h7 x hx
        rw [List.count_cons] at hx1
        simp only [List.count_append, List.count_singleton]
        by_cases hxu : u = x
        · subst hxu
          exact absurd hu_urls hx
        · rw [if_neg (by simpa using hxu)] at hx1 ⊢
          omega
      · intro x hx
        exact h11 x (hx.imp id (List.mem_cons_of_mem u))
      · intro x hx hret
        rcases List.mem_append.mp hx with hx | hx
        · exact h12 x hx hret
        · rw [List.mem_singleton] at hx
          subst hx
          obtain ⟨e2, he2, hr2⟩ := hret (s.attempts x)
          rw [horacle] at he2
          injection he2 with he
          subst he
          have hge : ¬ s.attempts x < maxA := fun hlt => hcond ⟨hr2, hlt⟩
          have := h9 x hu_urls
          show s.dispatched x = maxA
          omega

theorem Inv_procAll {urls : List String} {maxA : Nat}
    {oracle : String → Nat → Option String} {C : List String} {s : OrchState}
    (hI : Inv urls maxA oracle C s) :
    Inv urls maxA oracle [] (procAll maxA oracle s C) := by
  induction C generalizing s with
  | nil => exact hI
  | cons u rest ih => exact ih (Inv_drainOne hI)

theorem Inv_split {urls : List String} {maxA : Nat}
    {oracle : String → Nat → Option String} {s : OrchState} (sel : List Bool)
    (hI : Inv urls maxA oracle [] s) :
    Inv urls maxA oracle (pick s.inFlight sel)
      { s with inFlight := unpick s.inFlight sel } := by
  obtain ⟨h1, h2, h3, h4, h5, h6, h7, h8, h9, h10, h11, h12, h13⟩ := hI
  have hlen := pick_length s.inFlight sel
  simp only [List.length_nil] at h4 h5
  refine ⟨h1, h2, h3, by simp only []; omega,
    by simp only []; rw [h5]; push_cast; omega, ?_, ?_, h8, h9, h10, ?_, h12, h13⟩
  · intro x hx
    have hx1 := h6 x hx
    have hc := pick_count s.inFlight sel x
    simp only [List.count_nil] at hx1
    show s.pending.count x + (unpick s.inFlight sel).count x
      + (pick s.inFlight sel).count x + s.failedForever.count x
      + s.succeededUrls.count x = 1
    omega
  · intro x hx
    have hx1 := h7 x hx
    have hc := pick_count s.inFlight sel x
    simp only [List.count_nil] at hx1
    refine ⟨hx1.1, ?_, ?_, hx1.2.2.2.1, hx1.2.2.2.2⟩
    · show (unpick s.inFlight sel).count x = 0
      omega
    · show (pick s.inFlight sel).count x = 0
      omega
  · intro x hx
    refine h11 x (Or.inl ?_)
    rcases hx with hx | hx
    · exact mem_of_mem_unpick hx
    · exact mem_of_mem_pick hx

theorem Inv_tick {urls : List String} {maxA : Nat}
    {oracle : String → Nat → Option String} {s : OrchState} (sel : List Bool)
    (hI : Inv urls maxA oracle [] s) :
    Inv urls maxA oracle [] (tick maxA oracle sel s) :=
  Inv_procAll (Inv_split sel (Inv_dispatch hI))

theorem Inv_run {urls : List String} {maxA : Nat}
    {oracle : String → Nat → Option String} {s : OrchState}
    (sched : List (List Bool)) (hI : Inv urls maxA oracle [] s) :
    Inv urls maxA oracle [] (run maxA oracle sched s) := by
  induction sched generalizing s with
  | nil => exact hI
  | cons sel rest ih =>
    simp only [run]
    by_cases hd : loopDone s
    · rw [if_pos hd]; exact hI
    · rw [if_neg hd]; exact ih (Inv_tick sel hI)

theorem Inv_runFull {urls : List String} {maxA : Nat}
    {oracle : String → Nat → Option String} {s : OrchState}
    (n : Nat) (hI : Inv urls maxA oracle [] s) :
    Inv urls maxA oracle [] (runFull maxA oracle n s) := by
  induction n generalizing s with
  | zero => exact hI
  | succ m ih =>
    simp only [runFull]
    by_cases hd : loopDone s
    · rw [if_pos hd]; exact hI
    · rw [if_neg hd]; exact ih (Inv_tick _ hI)

theorem Inv_head_facts {urls : List String} {maxA : Nat}
    {oracle : String → Nat → Option String} {u : String} {C : List String}
    {s : OrchState} (hI : Inv urls maxA oracle (u :: C) s) :
    u ∈ urls ∧ u ∉ s.pending ∧ u ∉ s.inFlight ∧ u ∉ C := by
  obtain ⟨h1, h2, h3, h4, h5, h6, h7, h8, h9, h10, h11, h12, h13⟩ := hI
  have hu_urls : u ∈ urls := by
    by_contra hne
    have := (h7 u hne).2.2.1
    simp [List.count_cons_self] at this
  have hone := h6 u hu_urls
  rw [List.count_cons_self] at hone
  exact ⟨hu_urls, List.count_eq_zero.mp (by omega),
    List.count_eq_zero.mp (by omega), List.count_eq_zero.mp (by omega)⟩

theorem pot_drainOne {urls : List String} {maxA : Nat}
    {oracle : String → Nat → Option String} {u : String} {C : List String}
    {s : OrchState} (hI : Inv urls maxA oracle (u :: C) s) :
    livePot maxA (drainOne maxA oracle s u) C + 1 ≤ livePot maxA s (u :: C) := by
  obtain ⟨hu_urls, hnp, hnf, hnC⟩ := Inv_head_facts hI
  have hub := hI.att_ub u hu_urls
  cases horacle : oracle u (s.attempts u) with
  | none =>
    simp only [drainOne, horacle, livePot, List.map_append, List.sum_append,
      List.map_cons, List.sum_cons]
    omega
  | some e =>
    simp only [drainOne, horacle]
    by_cases hcond : retryable_error e = true ∧ s.attempts u < maxA
    · rw [if_pos hcond]
      simp only [livePot, List.map_append, List.sum_append, List.map_cons,
        List.sum_cons, List.map_nil, List.sum_nil]
      have hp : s.pending.map
            (fun x => maxA + 1 - (if x = u then s.attempts x + 1 else s.attempts x))
          = s.pending.map (fun x => maxA + 1 - s.attempts x) :=
        List.map_congr_left (fun x hx => by
          have hxu : x ≠ u := by rintro rfl; exact hnp hx
          rw [if_neg hxu])
      have hf : s.inFlight.map
            (fun x => maxA + 1 - (if x = u then s.attempts x + 1 else s.attempts x))
          = s.inFlight.map (fun x => maxA + 1 - s.attempts x) :=
        List.map_congr_left (fun x hx => by
          have hxu : x ≠ u := by rintro rfl; exact hnf hx
          rw [if_neg hxu])
      have hc : C.map
            (fun x => maxA + 1 - (if x = u then s.attempts x + 1 else s.attempts x))
          = C.map (fun x => maxA + 1 - s.attempts x) :=
        List.map_congr_left (fun x hx => by
          have hxu : x ≠ u := by rintro rfl; exact hnC hx
          rw [if_neg hxu])
      rw [hp, hf, hc]
      simp only [if_true]
      have hlt := hcond.2
      omega
    · rw [if_neg hcond]
      simp only [livePot, List.map_append, List.sum_append, List.map_cons,
        List.sum_cons]
      omega

theorem pot_procAll {urls : List String} {maxA : Nat}
    {oracle : String → Nat → Option String} {C : List String} {s : OrchState}
    (hI : Inv urls maxA oracle C s) :
    livePot maxA (procAll maxA oracle s C) [] + C.length ≤ livePot maxA s C := by
  induction C generalizing s with
  | nil => simp [procAll]
  | cons u rest ih =>
    have h1 := pot_drainOne hI
    have h2 := ih (Inv_drainOne hI)
    simp only [procAll, List.length_cons]
    omega

theorem pick_all (l : List String) :
    pick l (List.replicate l.length true) = l := by
  induction l with
  | nil => simp [pick]
  | cons u us ih => simp [pick, List.replicate, ih]

theorem unpick_all (l : List String) :
    unpick l (List.replicate l.length true) = [] := by
  induction l with
  | nil => simp [unpick]
  | cons u us ih => simp [unpick, List.replicate, ih]

theorem pot_tickFull {urls : List String} {maxA : Nat}
    {oracle : String → Nat → Option String} {s : OrchState}
    (hI : Inv urls maxA oracle [] s) (hnd : ¬ loopDone s = true) :
    livePot maxA (tickFull maxA oracle s) [] + 1 ≤ livePot maxA s [] := by
  have e1 : tickFull maxA oracle s
      = procAll maxA oracle { dispatch s with inFlight := [] }
          (dispatch s).inFlight := by
    simp only [tickFull, tick, pick_all, unpick_all]
  have hI2 : Inv urls maxA oracle (dispatch s).inFlight
      { dispatch s with inFlight := [] } := by
    have h := Inv_split (List.replicate (dispatch s).inFlight.length true)
      (Inv_dispatch hI)
    rwa [pick_all, unpick_all] at h
  have h2 := pot_procAll hI2
  have e2 : livePot maxA { dispatch s with inFlight := [] }
        (dispatch s).inFlight
      = livePot maxA s [] := by
    simp only [livePot, dispatch, List.map_append, List.sum_append,
      List.map_nil, List.sum_nil]
    omega
  have hlen : 1 ≤ (dispatch s).inFlight.length := by
    simp only [loopDone, Bool.and_eq_true, List.isEmpty_iff, not_and_or] at hnd
    simp only [dispatch, List.length_append]
    rcases hnd with h | h
    · have := List.length_pos.mpr h
      omega
    · have := List.length_pos.mpr h
      omega
  rw [e1]
  omega

theorem runFull_terminates {urls : List String} {maxA : Nat}
    {oracle : String → Nat → Option String} (n : Nat) {s : OrchState}
    (hI : Inv urls maxA oracle [] s) (hpot : livePot maxA s [] ≤ n) :
    loopDone (runFull maxA oracle n s) = true := by
  induction n generalizing s with
  | zero =>
    simp only [runFull]
    by_contra hnd
    simp only [loopDone, Bool.and_eq_true, List.isEmpty_iff, not_and_or] at hnd
    have hlive : ∃ u, u ∈ s.pending ++ s.inFlight ++ [] := by
      rcases hnd with h | h
      · obtain ⟨u, hu⟩ := List.exists_mem_of_ne_nil _ h
        exact ⟨u, by simp [hu]⟩
      · obtain ⟨u, hu⟩ := List.exists_mem_of_ne_nil _ h
        exact ⟨u, by simp [hu]⟩
    obtain ⟨u, hu⟩ := hlive
    have hu_urls : u ∈ urls := by
      by_contra hne
      have hz := hI.mem_zero u hne
      simp only [List.mem_append] at hu
      rcases hu with (hu | hu) | hu
      · exact absurd (List.count_pos_iff.mpr hu) (by omega)
      · exact absurd (List.count_pos_iff.mpr hu) (by omega)
      · simp at hu
    have hub := hI.att_ub u hu_urls
    have hmem : maxA + 1 - s.attempts u
        ∈ (s.pending ++ s.inFlight ++ []).map (fun x => maxA + 1 - s.attempts x) :=
      List.mem_map_of_mem _ hu
    have hle := List.le_sum_of_mem hmem
    have : livePot maxA s [] = 0 := by omega
    rw [livePot] at this
    omega
  | succ m ih =>
    simp only [runFull]
    by_cases hd : loopDone s
    · rw [if_pos hd]
      exact hd
    · rw [if_neg hd]
      have hstep := pot_tickFull hI hd
      exact ih (Inv_tick _ hI) (by omega)

/-! The claims about the orchestrator state. -/

/-- C4: for every run (over the spec's preconditions: deduplicated input,
`max_attempts ≥ 1`) and every observable point between dispatch/drain
batches, the counters satisfy
`succeeded + permanently_failed + remaining = total` with `remaining ≥ 0`
(hence `succeeded + permanently_failed ≤ total`), and once the loop guard
is false (termination) `succeeded + permanently_failed = total`. -/
theorem claim_C4_counter_invariant (urls : List String) (maxA : Nat)
    (oracle : String → Nat → Option String) (sched : List (List Bool))
    (hnd : urls.Nodup) (hmax : 1 ≤ maxA) :
    ((run maxA oracle sched (initState urls)).successCount : Int)
        + (run maxA oracle sched (initState urls)).failCount
        + (run maxA oracle sched (initState urls)).remaining
      = (run maxA oracle sched (initState urls)).total
    ∧ 0 ≤ (run maxA oracle sched (initState urls)).remaining
    ∧ (loopDone (run maxA oracle sched (initState urls)) = true →
        (run maxA oracle sched (initState urls)).successCount
          + (run maxA oracle sched (initState urls)).failCount
          = (run maxA oracle sched (initState urls)).total) := by
  have hI := Inv_run sched (Inv_init urls maxA oracle hnd hmax)
  obtain ⟨h1, h2, h3, h4, h5, h6, h7, h8, h9, h10, h11, h12, h13⟩ := hI
  simp only [List.length_nil] at h4 h5
  refine ⟨by rw [h5]; push_cast; omega, by rw [h5]; positivity, ?_⟩
  intro hdone
  simp only [loopDone, Bool.and_eq_true, List.isEmpty_iff] at hdone
  rw [hdone.1, hdone.2] at h4
  simp only [List.length_nil] at h4
  omega

/-- C4 witness: the counter facts evaluated on a concrete terminated run
(one url, one attempt, success). -/
theorem claim_C4_counter_invariant_witness :
    ((run 1 oracleNone [[true]] (initState ["a"])).successCount : Int)
        + (run 1 oracleNone [[true]] (initState ["a"])).failCount
        + (run 1 oracleNone [[true]] (initState ["a"])).remaining
      = (run 1 oracleNone [[true]] (initState ["a"])).total
    ∧ 0 ≤ (run 1 oracleNone [[true]] (initState ["a"])).remaining
    ∧ (run 1 oracleNone [[true]] (initState ["a"])).successCount
        + (run 1 oracleNone [[true]] (initState ["a"])).failCount
      = (run 1 oracleNone [[true]] (initState ["a"])).total := by
  have h := claim_C4_counter_invariant ["a"] 1 oracleNone [[true]]
    (by decide) (by decide)
  exact ⟨h.1, h.2.1, h.2.2 (by decide)⟩

/-- C6: for every run over a deduplicated input list (the stated
precondition), no URL appears more than once in the returned
permanent-failure list. -/
theorem claim_C6_failed_nodup (urls : List String) (maxA : Nat)
    (oracle : String → Nat → Option String) (sched : List (List Bool))
    (hnd : urls.Nodup) (hmax : 1 ≤ maxA) :
    (run maxA oracle sched (initState urls)).failedForever.Nodup := by
  have hI := Inv_run sched (Inv_init urls maxA oracle hnd hmax)
  rw [List.nodup_iff_count_le_one]
  intro x
  by_cases hx : x ∈ urls
  · have := hI.mem_one x hx
    omega
  · have := (hI.mem_zero x hx).2.2.2.1
    omega

/-- C6 witness: a concrete run where both urls fail permanently; the
failure list is duplicate-free. -/
theorem claim_C6_failed_nodup_witness :
    (run 1 oracle404 [[true, true]] (initState ["a", "b"])).failedForever.Nodup :=
  claim_C6_failed_nodup ["a", "b"] 1 oracle404 [[true, true]]
    (by decide) (by decide)

/-- Exhaustion under the CODE's retry classification: for every run
(deduplicated input, `max_attempts ≥ 1`) and every input URL whose fetch
attempts all fail with an error text the drain's string test classifies as
retryable, once the loop terminates the URL is recorded in the
permanent-failure list and exactly `max_attempts` fetches were dispatched
for it.  This is weaker than the spec's exhaustion law, which quantifies
over spec-retryable reasons: see `claim_C3_transport_single_dispatch`. -/
theorem exhaustion_under_code_classifier (urls : List String) (maxA : Nat)
    (oracle : String → Nat → Option String) (sched : List (List Bool))
    (u : String) (hnd : urls.Nodup) (hmax : 1 ≤ maxA) (hu : u ∈ urls)
    (hret : ∀ a, ∃ e, oracle u a = some e ∧ retryable_error e = true)
    (hterm : loopDone (run maxA oracle sched (initState urls)) = true) :
    u ∈ (run maxA oracle sched (initState urls)).failedForever
      ∧ (run maxA oracle sched (initState urls)).dispatched u = maxA := by
  have hI := Inv_run sched (Inv_init urls maxA oracle hnd hmax)
  obtain ⟨h1, h2, h3, h4, h5, h6, h7, h8, h9, h10, h11, h12, h13⟩ := hI
  simp only [loopDone, Bool.and_eq_true, List.isEmpty_iff] at hterm
  have hone := h6 u hu
  rw [hterm.1, hterm.2] at hone
  simp only [List.count_nil] at hone
  have hns : u ∉ (run maxA oracle sched (initState urls)).succeededUrls := by
    intro hmem
    obtain ⟨a, ha⟩ := h13 u hmem
    obtain ⟨e, he, _⟩ := hret a
    rw [ha] at he
    exact Option.noConfusion he
  have hs0 : (run maxA oracle sched (initState urls)).succeededUrls.count u = 0 :=
    List.count_eq_zero.mpr hns
  have hmemf : u ∈ (run maxA oracle sched (initState urls)).failedForever :=
    List.count_pos_iff.mp (by omega)
  exact ⟨hmemf, h12 u hmemf hret⟩

/-- The lemma above at a concrete input: one url, `max_attempts = 2`,
always failing with HTTP 500; permanently failed after exactly 2 dispatched
fetches (this also matches the spec, since HTTP 500 is retryable in both
senses). -/
theorem exhaustion_under_code_classifier_example :
    "u" ∈ (run 2 oracle500 [[true], [true]] (initState ["u"])).failedForever
      ∧ (run 2 oracle500 [[true], [true]] (initState ["u"])).dispatched "u" = 2 :=
  exhaustion_under_code_classifier ["u"] 2 oracle500 [[true], [true]] "u"
    (by decide) (by decide) (by decide)
    (fun _ => ⟨"HTTP 500", rfl, by decide⟩) (by decide)

/-- C3 (code bug): a URL whose fetch attempts all fail with a retryable
reason should consume exactly `max_attempts` fetches before being recorded
permanently failed.  Here every fetch fails with a Transport reason — the
text `requests` produces for a read timeout, from an exchange that never
yielded a status code, hence retryable per the spec's classification — yet
with `max_attempts = 5` the loop terminates after dispatching exactly ONE
fetch for the URL and records it permanently failed: the drain's string
test reads the text's `HTTP` head as an HTTP-status failure (the same slip
as C1).  The exhaustion law holds only under the code's own string
classification (`exhaustion_under_code_classifier`). -/
theorem claim_C3_transport_single_dispatch :
    loopDone (runFull 5 oracleTimeout 5 (initState ["http://a/x"])) = true
    ∧ (runFull 5 oracleTimeout 5 (initState ["http://a/x"])).failedForever
      = ["http://a/x"]
    ∧ (runFull 5 oracleTimeout 5 (initState ["http://a/x"])).dispatched
        "http://a/x" = 1
    ∧ ¬ (runFull 5 oracleTimeout 5 (initState ["http://a/x"])).dispatched
        "http://a/x" = 5 := by
  decide

/-- C9: for every finite input list (deduplicated, `max_attempts ≥ 1`),
assuming every dispatched fetch completes (modelled by the prompt
scheduler `runFull`), the dispatch-and-drain loop reaches its terminal
condition within `|urls| * max_attempts` iterations; moreover every drained
item either reaches a terminal outcome (success or permanent failure) or is
requeued with a strictly higher attempt count bounded by `max_attempts`. -/
theorem claim_C9_termination (urls : List String) (maxA : Nat)
    (oracle : String → Nat → Option String)
    (hnd : urls.Nodup) (hmax : 1 ≤ maxA) :
    loopDone (runFull maxA oracle (urls.length * maxA) (initState urls)) = true
    ∧ ∀ (s : OrchState) (u : String),
        (drainOne maxA oracle s u).succeededUrls = s.succeededUrls ++ [u]
        ∨ (drainOne maxA oracle s u).failedForever = s.failedForever ++ [u]
        ∨ ((drainOne maxA oracle s u).pending = s.pending ++ [u]
            ∧ (drainOne maxA oracle s u).attempts u = s.attempts u + 1
            ∧ s.attempts u + 1 ≤ maxA) := by
  constructor
  · have hinit : livePot maxA (initState urls) [] = urls.length * maxA := by
      simp only [livePot, initState, List.append_nil]
      rw [List.map_congr_left (fun x hx => by rw [if_pos hx])]
      rw [List.map_const']
      exact List.sum_const_nat urls.length maxA
    exact runFull_terminates (urls.length * maxA)
      (Inv_init urls maxA oracle hnd hmax) (le_of_eq hinit)
  · intro s u
    cases horacle : oracle u (s.attempts u) with
    | none =>
      left
      simp [drainOne, horacle]
    | some e =>
      by_cases hcond : retryable_error e = true ∧ s.attempts u < maxA
      · right; right
        refine ⟨?_, ?_, by omega⟩
        · simp [drainOne, horacle, hcond]
        · simp [drainOne, horacle, hcond]
      · right; left
        simp [drainOne, horacle, hcond]

/-- C9 witness: a concrete two-url run under the prompt scheduler reaches
the terminal condition, and the drain dichotomy evaluated at a concrete
state. -/
theorem claim_C9_termination_witness :
    loopDone (runFull 1 oracle404 2 (initState ["a", "b"])) = true
    ∧ ((drainOne 1 oracle404 (initState ["a", "b"]) "a").succeededUrls
          = (initState ["a", "b"]).succeededUrls ++ ["a"]
        ∨ (drainOne 1 oracle404 (initState ["a", "b"]) "a").failedForever
          = (initState ["a", "b"]).failedForever ++ ["a"]
        ∨ ((drainOne 1 oracle404 (initState ["a", "b"]) "a").pending
              = (initState ["a", "b"]).pending ++ ["a"]
            ∧ (drainOne 1 oracle404 (initState ["a", "b"]) "a").attempts "a"
              = (initState ["a", "b"]).attempts "a" + 1
            ∧ (initState ["a", "b"]).attempts "a" + 1 ≤ 1)) :=
  ⟨(claim_C9_termination ["a", "b"] 1 oracle404 (by decide) (by decide)).1,
   (claim_C9_termination ["a", "b"] 1 oracle404 (by decide) (by decide)).2
     (initState ["a", "b"]) "a"⟩

/-! The claims about the single-resource fetcher. -/

/-- C10: every value returned by `download_image` is either
`(True, None)` or `(False, s)` with `s` a string — the error field is
`None` exactly when success is `True` — so the drain loop's string tests on
the error are only reached with an actual string. -/
theorem claim_C10_success_iff_no_error
    (http : String → Except String Response)
    (writeB : String → String → Except String Unit)
    (url output_dir : String) (r : FetchResult)
    (h : download_image http writeB url output_dir = Except.ok r) :
    r.success = true ↔ r.error = none := by
  unfold download_image at h
  split at h
  · exact Except.noConfusion h
  · split at h
    · injection h with h
      subst h
      simp
    · split at h
      · simp only [] at h
        split at h
        · injection h with h
          subst h
          simp
        · injection h with h
          subst h
          simp
      · injection h with h
        subst h
        simp

/-- C10 witness: the dichotomy evaluated on a concrete successful fetch. -/
theorem claim_C10_success_iff_no_error_witness :
    ((⟨true, none, [("out/a.jpg", "x")]⟩ : FetchResult).success = true
      ↔ (⟨true, none, [("out/a.jpg", "x")]⟩ : FetchResult).error = none) :=
  claim_C10_success_iff_no_error (httpConst 200 "x") writeOk
    "http://example.com/a.jpg" "out" ⟨true, none, [("out/a.jpg", "x")]⟩
    rfl

/-- C2 (code bug): `download_image` is claimed never to raise, but the URL
parse and filename derivation run BEFORE the `try` block; on the malformed
URL `http://[::1` the parse raises `ValueError("Invalid IPv6 URL")`, which
propagates to the caller — in every http world and every storage. -/
theorem claim_C2_parse_escapes_try
    (http : String → Except String Response)
    (writeB : String → String → Except String Unit) (output_dir : String) :
    download_image http writeB "http://[::1" output_dir
      = Except.error "Invalid IPv6 URL" := rfl

/-- C1 (code bug): the drain requeues by string tests on the error text.
For the `HTTP {code}` texts of completed exchanges this matches the claim
(5xx, 408, 429 retryable; 404, 403 not), and a transport text such as
`connection refused` is retried; but the text `requests` produces for
connection/timeout transport failures starts with `HTTPSConnectionPool`, so
`not error.startswith("HTTP")` is false and that failure is recorded
permanently on the first attempt even though attempts remain — against the
claim that every non-HTTP (transport) error is requeued. -/
theorem claim_C1_retry_classification :
    retryable_error "HTTP 500" = true
    ∧ retryable_error "HTTP 503" = true
    ∧ retryable_error "HTTP 408" = true
    ∧ retryable_error "HTTP 429" = true
    ∧ retryable_error "HTTP 404" = false
    ∧ retryable_error "HTTP 403" = false
    ∧ retryable_error "connection refused" = true
    ∧ retryable_error
        "HTTPSConnectionPool(host=example.com, port=443): Read timed out. (read timeout=30)"
      = false
    ∧ (drainOne 5 oracleTimeout (dispatch (initState ["http://a/x"]))
        "http://a/x").failedForever = ["http://a/x"]
    ∧ (dispatch (initState ["http://a/x"])).attempts "http://a/x" = 1 := by
  decide

/-- C8 counterexample: a completed exchange with status 201 — a 2xx code —
yields a Failure with reason `HTTP 201`, not Success: the source tests
`status_code == 200`, not membership in the 2xx range. -/
theorem claim_C8_counterexample :
    (200 ≤ 201 ∧ 201 ≤ 299)
    ∧ download_image (httpConst 201 "x") writeOk "http://example.com/a.jpg" "out"
      = Except.ok ⟨false, some "HTTP 201", []⟩ :=
  ⟨⟨by decide, by decide⟩, rfl⟩

/-- C8 (amended): on every completed exchange the fetcher yields Success
exactly for status code 200 (the write succeeding), and a Failure carrying
`HTTP {code}` for every other status code — including 2xx codes other than
200. -/
theorem claim_C8_amended (status : Nat) (content url output_dir : String)
    (parts : UrlParts) (hp : urlparseCore url = Except.ok parts) :
    ∃ r, download_image (httpConst status content) writeOk url output_dir
        = Except.ok r
      ∧ r.success = decide (status = 200)
      ∧ r.error = if status = 200 then none
          else some ("HTTP " ++ toString status) := by
  unfold download_image httpConst writeOk
  rw [hp]
  by_cases hs : status = 200
  · subst hs
    exact ⟨_, rfl, by simp, by simp⟩
  · exact ⟨⟨false, some ("HTTP " ++ toString status), []⟩,
      by simp [hs], by simp [hs], by simp [hs]⟩

/-- C8 amended witness: status 204 on a concrete URL yields the Failure
`HTTP 204`. -/
theorem claim_C8_amended_witness :
    ∃ r, download_image (httpConst 204 "x") writeOk "http://example.com/a.jpg" "out"
        = Except.ok r
      ∧ r.success = decide (204 = 200)
      ∧ r.error = if 204 = 200 then none else some ("HTTP " ++ toString 204) :=
  claim_C8_amended 204 "x" "http://example.com/a.jpg" "out"
    ⟨"http", "example.com", "/a.jpg"⟩ rfl

/-- C7 counterexample: for `http://example.com:8080` (no path segment) the
fallback filename is `{netloc}.html` = `example.com:8080.html`, keeping the
port — not `{host}.html` = `example.com.html` built from the URL's host
name as the claim states. -/
theorem claim_C7_counterexample :
    download_image (httpConst 200 "body") writeOk "http://example.com:8080" "out"
      = Except.ok ⟨true, none, [("out/example.com:8080.html", "body")]⟩
    ∧ spec_hostName "example.com:8080" = "example.com"
    ∧ ("out/" ++ (spec_hostName "example.com:8080" ++ ".html")
        ≠ "out/" ++ "example.com:8080.html") :=
  ⟨rfl, rfl, by decide⟩

/-- C7 (amended): on every fetch whose exchange completes with status 200
(and whose write succeeds), exactly one file is written, at
`storage_dir/filename` with filename the final segment of the URL's path
as `urlparse` yields it (`;params` on the last segment stripped), or
`{netloc}.html` — the netloc being the full authority, possibly with port
or user-info — when the path yields no segment; on a completed exchange
with a non-200 status nothing is written. -/
theorem claim_C7_amended (status : Nat) (content url output_dir : String)
    (parts : UrlParts) (hp : urlparseCore url = Except.ok parts) :
    ∃ r, download_image (httpConst status content) writeOk url output_dir
        = Except.ok r
      ∧ r.writes = (if status = 200
          then [(output_dir ++ "/" ++ derived_filename parts, content)]
          else []) := by
  unfold download_image httpConst writeOk
  rw [hp]
  by_cases hs : status = 200
  · subst hs
    exact ⟨_, rfl, by simp⟩
  · exact ⟨⟨false, some ("HTTP " ++ toString status), []⟩,
      by simp [hs], by simp [hs]⟩

/-- C7 amended witness: a 200 exchange for `http://example.com/` (path has
no usable segment) writes exactly one file, `out/example.com.html`. -/
theorem claim_C7_amended_witness :
    ∃ r, download_image (httpConst 200 "b") writeOk "http://example.com/" "out"
        = Except.ok r
      ∧ r.writes = (if 200 = 200
          then [("out" ++ "/" ++ derived_filename ⟨"http", "example.com", "/"⟩, "b")]
          else []) :=
  claim_C7_amended 200 "b" "http://example.com/" "out"
    ⟨"http", "example.com", "/"⟩ rfl

/-- C5 counterexample: with two pending urls and a claimed bound
`max_concurrency = 1`, the dispatch phase submits both at once: after
dispatch two fetches are in flight (dispatched, completion not yet
observed), exceeding the bound — the source's dispatch loop
(`while pending_urls:`) consults no concurrency bound at all. -/
theorem claim_C5_counterexample :
    (dispatch (initState ["a", "b"])).inFlight.length = 2
    ∧ ¬ (dispatch (initState ["a", "b"])).inFlight.length ≤ 1 := by
  decide

/-- C5 (amended): the dispatch phase unconditionally submits every pending
item — after dispatch the pending queue is empty and the in-flight set has
absorbed it whole — so for any proposed bound `c` there is an input with
more than `c` fetches in flight at once; the number of simultaneously
EXECUTING fetches is limited to `max_workers` by the thread pool itself,
not by the orchestrator's dispatch loop. -/
theorem claim_C5_amended :
    (∀ s : OrchState, (dispatch s).pending = []
      ∧ (dispatch s).inFlight = s.inFlight ++ s.pending)
    ∧ ∀ c : Nat, ∃ urls : List String,
        (dispatch (initState urls)).inFlight.length = urls.length
        ∧ c < (dispatch (initState urls)).inFlight.length := by
  refine ⟨fun s => ⟨rfl, rfl⟩, fun c => ⟨List.replicate (c + 1) "u", ?_, ?_⟩⟩
  · simp [dispatch, initState]
  · simp [dispatch, initState]

end Parldl
